import Mathlib

/-!
Verification of the currency-conversion and reward-optimization engine of the
Bigo-Host-Calculator repository (the "Alpha Agency 752 dashboard").

The engine consists of two functions in
`src/Alpha Agency 752 dashboard/main.py`:

* `greedy_bean_to_diamond(beans, packages)` — the Greedy Allocator
  (descending-cost greedy pass over a package catalog);
* `reward_breakdown(pk_points)` — the PK Reward Optimizer (greedy
  consumption of each of four fixed reward tables, keeping the best).

`Hosting_pay_dashboard.py` and `agency_pay_dashboard.py` contain near-identical
variants of the same functions without the input-validation guards; on the
positive-cost catalogs all claims quantify over, the variants agree with the
guarded `main.py` versions, which are the ones embedded here.

The Exact Allocator (`allocateOptimal`, spec §4.2) has no implementation in
the repository sources; it is modelled from the spec below (`bestRow`,
`bestTable`, `best`).

Python `//` on ints is floor division, embedded as `Int.fdiv`.  Python ints
are unbounded, embedded as `Int`.
-/

/-- One PK reward table name, mirroring the four fixed string keys of the
`pk_data` dictionary in `reward_breakdown` (`main.py`); Python dictionaries
iterate in insertion order, so the order of these constructors is the
iteration order of the dictionary. -/
inductive PkType where
  | daily
  | talent
  | agency2v2
  | starTasks
deriving DecidableEq

/-- Insert one package into a cost-descending list, keeping it before the
first element whose cost is not larger; together with `sortDesc` this models
Python's stable descending sort. -/
def insertDesc (x : Int × Int) : List (Int × Int) → List (Int × Int)
  | [] => [x]
  | y :: ys => if y.1 ≤ x.1 then x :: y :: ys else y :: insertDesc x ys

/-- Stable descending sort by cost, modelling
`sorted(packages, reverse=True, key=lambda x: x[0])` in `main.py` (Python's
sort is stable, and `reverse=True` keeps equal-key elements in original
order). -/
def sortDesc : List (Int × Int) → List (Int × Int)
  | [] => []
  | x :: xs => insertDesc x (sortDesc xs)

/-- The loop of `greedy_bean_to_diamond` (`main.py` lines 106-116): walk the
sorted package list; for each package `(bean_cost, dia_return)` with
`remaining >= bean_cost`, take `cnt = remaining // bean_cost` copies when
`cnt > 0`.  Usage counts are keyed by the `(cost, yield)` pair in place of the
Python `f"{bean_cost}→{dia_return}"` string key; a recorded key is never
written twice, because once a package of cost `c > 0` is consumed the
remaining budget is `< c` and never increases, while packages with
`cost ≤ 0` are never recorded (`cnt > 0` fails for negative cost and
nonnegative remainder, and cost `0` raises).  The `none` result models the
`ZeroDivisionError` raised by `remaining // 0`, which the surrounding
`try/except` turns into the zero result. -/
def greedyLoopE : List (Int × Int) → Int → Option (Int × Int × List ((Int × Int) × Int))
  | [], remaining => some (0, remaining, [])
  | (c, y) :: rest, remaining =>
    if c ≤ remaining then
      if c = 0 then none
      else
        let cnt := Int.fdiv remaining c
        if 0 < cnt then
          match greedyLoopE rest (remaining - cnt * c) with
          | none => none
          | some r => some (cnt * y + r.1, r.2.1, ((c, y), cnt) :: r.2.2)
        else greedyLoopE rest remaining
    else greedyLoopE rest remaining

/-- The function `greedy_bean_to_diamond(beans, packages)` from `main.py` (lines 97-118):
returns `(total_diamonds, remaining, counts)`.  The guard on line 99 returns
`(0, beans, {})` for an empty catalog or a non-positive budget; the
`except` clause (line 114) likewise returns `(0, beans, {})` if the loop
raises. -/
def greedy_bean_to_diamond (beans : Int) (packages : List (Int × Int)) :
    Int × Int × List ((Int × Int) × Int) :=
  if packages = [] ∨ beans ≤ 0 then (0, beans, [])
  else
    match greedyLoopE (sortDesc packages) beans with
    | none => (0, beans, [])
    | some r => r

/-- Total bean cost recorded in a greedy usage list: `Σ count * cost`. -/
def sumCost (cs : List ((Int × Int) × Int)) : Int :=
  (cs.map (fun p => p.2 * p.1.1)).sum

/-- Total diamond yield recorded in a greedy usage list: `Σ count * yield`. -/
def sumYield (cs : List ((Int × Int) × Int)) : Int :=
  (cs.map (fun p => p.2 * p.1.2)).sum

/-- The four fixed PK reward tables hard-coded in `reward_breakdown`
(`main.py` lines 125-134), in dictionary insertion order; each rung is a
`(point cost, bean win)` pair. -/
def pk_data : List (PkType × List (Int × Int)) :=
  [(PkType.daily,
    [(7000, 210), (10000, 300), (20000, 600), (30000, 900),
     (50000, 1000), (100000, 1800), (150000, 2700)]),
   (PkType.talent,
    [(5000, 150), (10000, 350), (20000, 700), (30000, 1000),
     (50000, 1700)]),
   (PkType.agency2v2,
    [(5000, 150), (10000, 300), (25000, 800), (50000, 1700),
     (70000, 2300), (100000, 3500)]),
   (PkType.starTasks,
    [(2000, 60), (10000, 320), (50000, 1700), (80000, 2800),
     (100000, 3500), (120000, 4000)])]

/-- The per-table loop of `reward_breakdown` (`main.py` lines 150-157):
over the descending-sorted rungs, consume `count = temp_points // cost`
rungs whenever affordable.  Returns
`(temp_points, temp_win, steps, temp_used)`.  All costs in `pk_data` are
positive, so the division never raises. -/
def pkLoop : List (Int × Int) → Int → Int × Int × List (Int × Int × Int) × Int
  | [], p => (p, 0, [], 0)
  | (cost, win) :: rest, p =>
    if cost ≤ p then
      let count := Int.fdiv p cost
      if 0 < count then
        let r := pkLoop rest (p - count * cost)
        (r.1, count * win + r.2.1, (count, cost, win) :: r.2.2.1, count * cost + r.2.2.2)
      else pkLoop rest p
    else pkLoop rest p

/-- One table's evaluation in `reward_breakdown`: sort its rungs by
descending cost, then run the greedy loop against the full budget. -/
def tableRun (p : Int) (rewards : List (Int × Int)) :
    Int × Int × List (Int × Int × Int) × Int :=
  pkLoop (sortDesc rewards) p

/-- The `temp_win` a table earns from the full budget `p`. -/
def tableWin (p : Int) (rewards : List (Int × Int)) : Int :=
  (tableRun p rewards).2.1

/-- The accumulator of `reward_breakdown`'s table loop, and the function's
return value `(best_type, best_win, best_steps, diamonds_used, remainder)`
(`main.py` lines 136-140 and 169). -/
structure PkAcc where
  best_type : Option PkType
  best_win : Int
  best_steps : List (Int × Int × Int)
  diamonds_used : Int
  remainder : Int
deriving DecidableEq

/-- The accumulator value written when a table beats the current best
(`main.py` lines 159-164): its win, steps, `temp_used // 10`, and leftover
points. -/
def tablePayload (p : Int) (t : PkType × List (Int × Int)) : PkAcc :=
  ⟨some t.1, (tableRun p t.2).2.1, (tableRun p t.2).2.2.1,
   Int.fdiv (tableRun p t.2).2.2.2 10, (tableRun p t.2).1⟩

/-- The table loop of `reward_breakdown` (`main.py` lines 143-164): each
table is evaluated independently against the full budget, and the
accumulator is replaced exactly when `temp_win > best_win` (strict). -/
def pkFold (p : Int) : List (PkType × List (Int × Int)) → PkAcc → PkAcc
  | [], acc => acc
  | t :: rest, acc =>
    pkFold p rest (if acc.best_win < tableWin p t.2 then tablePayload p t else acc)

/-- The function `reward_breakdown(pk_points)` from `main.py` (lines 120-169): the guard
on line 122 returns the null result `(None, 0, [], 0, pk_points)` for a
non-positive budget; otherwise the four tables are folded from the null
initial accumulator. -/
def reward_breakdown (pk_points : Int) : PkAcc :=
  if pk_points ≤ 0 then ⟨none, 0, [], 0, pk_points⟩
  else pkFold pk_points pk_data ⟨none, 0, [], 0, pk_points⟩

/-- Greatest `tableWin` over a list of tables, folded above the seed `m`. -/
def foldMax (p : Int) (tables : List (PkType × List (Int × Int))) (m : Int) : Int :=
  tables.foldr (fun t m2 => max (tableWin p t.2) m2) m

/-- Greatest total win any of the four fixed tables earns from budget `p`. -/
def maxWin (p : Int) : Int :=
  foldMax p pk_data 0

/-- Points spent according to a step list of `reward_breakdown`:
`Σ count * cost` over its `(count, cost, win)` entries. -/
def stepsCost (s : List (Int × Int × Int)) : Int :=
  (s.map (fun x => x.1 * x.2.1)).sum

/-- Cost of a selection (a multiset of tiers, one list entry per use). -/
def selCost (sel : List (Int × Int)) : Int :=
  (sel.map Prod.fst).sum

/-- Yield of a selection (a multiset of tiers, one list entry per use). -/
def selYield (sel : List (Int × Int)) : Int :=
  (sel.map Prod.snd).sum

/-- Modelled from the spec: one row of the Exact Allocator's DP table
(spec §4.2; `allocateOptimal` has no implementation under `src/`).  Given
`prev = [best (b-1), best (b-2), ..., best 0]`, this is
`best b = max over tiers (cost, yield) with cost ≤ b of
best (b - cost) + yield`, at least `0` (the empty selection).  The spec's
catalog invariant `cost > 0` appears as a guard so that the table index
`cost - 1` is meaningful. -/
def bestRow (prev : List Int) (b : Nat) (catalog : List (Int × Int)) : Int :=
  catalog.foldr
    (fun t m =>
      if 0 < t.1 ∧ t.1 ≤ (b : Int) then max (prev.getD (t.1.toNat - 1) 0 + t.2) m else m)
    0

/-- Modelled from the spec: the Exact Allocator's DP table
`[best b, best (b-1), ..., best 0]` (spec §4.2), with `best 0 = 0`. -/
def bestTable (catalog : List (Int × Int)) : Nat → List Int
  | 0 => [0]
  | b + 1 => bestRow (bestTable catalog b) (b + 1) catalog :: bestTable catalog b

/-- Modelled from the spec: the Exact Allocator's `totalYield`,
`allocateOptimal(budget, catalog).totalYield = best[budget]` (spec §4.2). -/
def best (catalog : List (Int × Int)) (budget : Nat) : Int :=
  (bestTable catalog budget).headD 0

/-- Expand a greedy usage list into a selection: each `(tier, count)` entry
becomes `count` copies of the tier. -/
def expand : List ((Int × Int) × Int) → List (Int × Int)
  | [] => []
  | q :: rest => List.replicate q.2.toNat q.1 ++ expand rest

/-! ## Lemmas about the sort -/

theorem mem_insertDesc {a x : Int × Int} {l : List (Int × Int)} :
    a ∈ insertDesc x l ↔ a = x ∨ a ∈ l := by
  induction l with
  | nil => simp [insertDesc]
  | cons y ys ih =>
    by_cases h : y.1 ≤ x.1
    · simp [insertDesc, h]
    · simp only [insertDesc, if_neg h, List.mem_cons, ih]
      tauto

theorem mem_sortDesc {a : Int × Int} {l : List (Int × Int)} :
    a ∈ sortDesc l ↔ a ∈ l := by
  induction l with
  | nil => simp [sortDesc]
  | cons x xs ih => simp [sortDesc, mem_insertDesc, ih]

/-! ## Unfolding lemmas for the greedy loop -/

theorem greedyLoopE_cons_take {c y r : Int} {rest : List (Int × Int)}
    (h1 : c ≤ r) (h2 : ¬ c = 0) (h3 : 0 < Int.fdiv r c) :
    greedyLoopE ((c, y) :: rest) r =
      match greedyLoopE rest (r - Int.fdiv r c * c) with
      | none => none
      | some q => some (Int.fdiv r c * y + q.1, q.2.1, ((c, y), Int.fdiv r c) :: q.2.2) := by
  simp [greedyLoopE, h1, h2, h3]

theorem greedyLoopE_cons_skip {c y r : Int} {rest : List (Int × Int)}
    (h1 : ¬ c ≤ r) :
    greedyLoopE ((c, y) :: rest) r = greedyLoopE rest r := by
  simp [greedyLoopE, h1]

/-- Master invariant of the greedy loop over a positive-cost package list and
a nonnegative remaining budget: the loop never raises, spent plus leftover is
the initial budget, the total equals the recorded yield, the leftover is
nonnegative, never grows, and is strictly below every cost in the list, and
every recorded count is positive and belongs to the list. -/
theorem greedyLoopE_spec (l : List (Int × Int)) (hpos : ∀ t ∈ l, 0 < t.1) :
    ∀ r : Int, 0 ≤ r →
    ∃ d r2 cs, greedyLoopE l r = some (d, r2, cs)
      ∧ sumCost cs + r2 = r
      ∧ d = sumYield cs
      ∧ 0 ≤ r2 ∧ r2 ≤ r
      ∧ (∀ t ∈ l, r2 < t.1)
      ∧ (∀ q ∈ cs, 0 < q.2 ∧ q.1 ∈ l) := by
  induction l with
  | nil =>
    intro r hr
    exact ⟨0, r, [], rfl, by simp [sumCost], by simp [sumYield], hr, le_refl r,
      by simp, by simp⟩
  | cons t rest ih =>
    obtain ⟨c, y⟩ := t
    have hc : 0 < c := hpos (c, y) (List.mem_cons_self _ _)
    have hrest : ∀ t ∈ rest, 0 < t.1 := fun t ht => hpos t (List.mem_cons_of_mem _ ht)
    intro r hr
    by_cases hcr : c ≤ r
    · have hc0 : ¬ c = 0 := by omega
      have hfd : Int.fdiv r c = r / c := Int.fdiv_eq_ediv _ (le_of_lt hc)
      have hcnt : 0 < Int.fdiv r c := by
        rw [hfd]
        have h1 : (1 : Int) ≤ r / c := (Int.le_ediv_iff_mul_le hc).mpr (by omega)
        omega
      have hde : c * (r / c) + r % c = r := Int.ediv_add_emod r c
      have hr1eq : r - Int.fdiv r c * c = r % c := by
        rw [hfd]
        linarith [mul_comm (r / c) c]
      have hr1nn : 0 ≤ r - Int.fdiv r c * c := by
        rw [hr1eq]; exact Int.emod_nonneg r (by omega)
      have hr1lt : r - Int.fdiv r c * c < c := by
        rw [hr1eq]; exact Int.emod_lt_of_pos r hc
      obtain ⟨d, r2, cs, heq, hcons, hyld, hnn, hle, hlt, hmem⟩ :=
        ih hrest (r - Int.fdiv r c * c) hr1nn
      refine ⟨Int.fdiv r c * y + d, r2, ((c, y), Int.fdiv r c) :: cs, ?_, ?_, ?_, hnn, ?_, ?_, ?_⟩
      · rw [greedyLoopE_cons_take hcr hc0 hcnt, heq]
      · simp only [sumCost, List.map_cons, List.sum_cons] at hcons ⊢
        linarith
      · simp only [sumYield, List.map_cons, List.sum_cons] at hyld ⊢
        omega
      · have hcc : 0 < Int.fdiv r c * c := mul_pos hcnt hc
        linarith
      · intro t ht
        rcases List.mem_cons.mp ht with h | h
        · subst h; linarith
        · exact hlt t h
      · intro q hq
        rcases List.mem_cons.mp hq with h | h
        · subst h; exact ⟨hcnt, List.mem_cons_self _ _⟩
        · exact ⟨(hmem q h).1, List.mem_cons_of_mem _ (hmem q h).2⟩
    · obtain ⟨d, r2, cs, heq, hcons, hyld, hnn, hle, hlt, hmem⟩ := ih hrest r hr
      refine ⟨d, r2, cs, ?_, hcons, hyld, hnn, hle, ?_, ?_⟩
      · rw [greedyLoopE_cons_skip hcr, heq]
      · intro t ht
        rcases List.mem_cons.mp ht with h | h
        · subst h; simp only; linarith
        · exact hlt t h
      · exact fun q hq => ⟨(hmem q hq).1, List.mem_cons_of_mem _ (hmem q hq).2⟩

/-- C2: for every non-negative integer budget and every catalog of tiers with
positive costs, the Greedy Allocator satisfies the conservation invariant:
the sum over used tiers of `count * cost` plus the returned leftover equals
the input budget, and the returned total yield equals the sum over used tiers
of `count * yield`. -/
theorem greedy_conservation (beans : Int) (packages : List (Int × Int))
    (hb : 0 ≤ beans) (hpos : ∀ t ∈ packages, 0 < t.1) :
    sumCost (greedy_bean_to_diamond beans packages).2.2
        + (greedy_bean_to_diamond beans packages).2.1 = beans
      ∧ (greedy_bean_to_diamond beans packages).1
        = sumYield (greedy_bean_to_diamond beans packages).2.2 := by
  by_cases hg : packages = [] ∨ beans ≤ 0
  · simp [greedy_bean_to_diamond, hg, sumCost, sumYield]
  · have hpos2 : ∀ t ∈ sortDesc packages, 0 < t.1 :=
      fun t ht => hpos t (mem_sortDesc.mp ht)
    obtain ⟨d, r2, cs, heq, hcons, hyld, _⟩ := greedyLoopE_spec (sortDesc packages) hpos2 beans hb
    simp [greedy_bean_to_diamond, hg, heq, hcons, hyld]

theorem greedy_conservation_witness :
    sumCost (greedy_bean_to_diamond 10000
          [(8, 2), (109, 29), (999, 275), (3999, 1105), (10999, 3045)]).2.2
        + (greedy_bean_to_diamond 10000
          [(8, 2), (109, 29), (999, 275), (3999, 1105), (10999, 3045)]).2.1 = 10000
      ∧ (greedy_bean_to_diamond 10000
          [(8, 2), (109, 29), (999, 275), (3999, 1105), (10999, 3045)]).1
        = sumYield (greedy_bean_to_diamond 10000
          [(8, 2), (109, 29), (999, 275), (3999, 1105), (10999, 3045)]).2.2 :=
  greedy_conservation 10000 _ (by decide) (by decide)

/-- C10: for every non-negative budget and non-empty positive-cost catalog,
the Greedy Allocator's leftover is strictly below every tier cost (hence
below the smallest tier cost), and every recorded usage count is strictly
positive. -/
theorem greedy_leftover_bound (beans : Int) (packages : List (Int × Int))
    (hb : 0 ≤ beans) (hne : packages ≠ []) (hpos : ∀ t ∈ packages, 0 < t.1) :
    (∀ t ∈ packages, (greedy_bean_to_diamond beans packages).2.1 < t.1)
      ∧ ∀ q ∈ (greedy_bean_to_diamond beans packages).2.2, 0 < q.2 := by
  by_cases hz : beans ≤ 0
  · have hb0 : beans = 0 := le_antisymm hz hb
    subst hb0
    constructor
    · intro t ht
      simpa [greedy_bean_to_diamond] using hpos t ht
    · intro q hq
      simp [greedy_bean_to_diamond] at hq
  · have hg : ¬ (packages = [] ∨ beans ≤ 0) := by
      push_neg
      exact ⟨hne, lt_of_not_le hz⟩
    have hpos2 : ∀ t ∈ sortDesc packages, 0 < t.1 :=
      fun t ht => hpos t (mem_sortDesc.mp ht)
    obtain ⟨d, r2, cs, heq, _, _, _, _, hlt, hmem⟩ :=
      greedyLoopE_spec (sortDesc packages) hpos2 beans hb
    constructor
    · intro t ht
      simpa [greedy_bean_to_diamond, hg, heq] using hlt t (mem_sortDesc.mpr ht)
    · intro q hq
      simp only [greedy_bean_to_diamond, if_neg hg, heq] at hq
      exact (hmem q hq).1

theorem greedy_leftover_bound_witness :
    (∀ t ∈ [((8 : Int), (2 : Int)), (109, 29), (999, 275), (3999, 1105), (10999, 3045)],
        (greedy_bean_to_diamond 10000
          [(8, 2), (109, 29), (999, 275), (3999, 1105), (10999, 3045)]).2.1 < t.1)
      ∧ ∀ q ∈ (greedy_bean_to_diamond 10000
          [(8, 2), (109, 29), (999, 275), (3999, 1105), (10999, 3045)]).2.2, 0 < q.2 :=
  greedy_leftover_bound 10000 _ (by decide) (by decide) (by decide)

/-- C8: for every non-negative budget, the Greedy Allocator with an empty
catalog returns total yield 0, an empty usage mapping, and leftover equal to
the full input budget. -/
theorem greedy_empty_catalog (beans : Int) (hb : 0 ≤ beans) :
    greedy_bean_to_diamond beans [] = (0, beans, []) := by
  simp [greedy_bean_to_diamond]

theorem greedy_empty_catalog_witness :
    greedy_bean_to_diamond 42 [] = (0, 42, []) :=
  greedy_empty_catalog 42 (by decide)

/-- C4: on the catalog `[(8,2),(109,29),(999,275),(3999,1105),(10999,3045)]`
with budget 10000, the Greedy Allocator skips the 10999 tier, uses the 3999
tier twice then the 999 tier twice and nothing else, for total yield 2760
and leftover 4. -/
theorem greedy_example_10000 :
    greedy_bean_to_diamond 10000 [(8, 2), (109, 29), (999, 275), (3999, 1105), (10999, 3045)]
      = (2760, 4, [((3999, 1105), 2), ((999, 275), 2)]) := by
  decide

/-- C7: both allocators are deterministic — two calls with identical inputs
return identical results.  In this embedding both are closed functions of
their arguments alone (the source functions read only function-local state
and the constant table `pk_data`), so the result of a repeated call is
definitionally the same. -/
theorem allocators_deterministic (beans : Int) (packages : List (Int × Int))
    (pk_points : Int) :
    greedy_bean_to_diamond beans packages = greedy_bean_to_diamond beans packages
      ∧ reward_breakdown pk_points = reward_breakdown pk_points :=
  ⟨rfl, rfl⟩

/-! ## Unfolding lemmas for the PK table loop -/

theorem pkLoop_cons_take {cost win p : Int} {rest : List (Int × Int)}
    (h1 : cost ≤ p) (h2 : 0 < Int.fdiv p cost) :
    pkLoop ((cost, win) :: rest) p =
      ((pkLoop rest (p - Int.fdiv p cost * cost)).1,
       Int.fdiv p cost * win + (pkLoop rest (p - Int.fdiv p cost * cost)).2.1,
       (Int.fdiv p cost, cost, win) :: (pkLoop rest (p - Int.fdiv p cost * cost)).2.2.1,
       Int.fdiv p cost * cost + (pkLoop rest (p - Int.fdiv p cost * cost)).2.2.2) := by
  simp [pkLoop, h1, h2]

theorem pkLoop_cons_skip {cost win p : Int} {rest : List (Int × Int)}
    (h1 : ¬ cost ≤ p) :
    pkLoop ((cost, win) :: rest) p = pkLoop rest p := by
  simp [pkLoop, h1]

/-- Invariant of the per-table loop on a positive-cost rung list and a
nonnegative budget: the leftover points are nonnegative and at most the
budget, spent plus leftover is the budget, and the spent amount is the sum
`Σ count * cost` over the recorded steps. -/
theorem pkLoop_spec (l : List (Int × Int)) (hpos : ∀ t ∈ l, 0 < t.1) :
    ∀ p : Int, 0 ≤ p →
      0 ≤ (pkLoop l p).1
      ∧ (pkLoop l p).1 ≤ p
      ∧ (pkLoop l p).2.2.2 + (pkLoop l p).1 = p
      ∧ (pkLoop l p).2.2.2 = stepsCost (pkLoop l p).2.2.1 := by
  induction l with
  | nil =>
    intro p hp
    exact ⟨hp, le_refl p, by simp [pkLoop], by simp [pkLoop, stepsCost]⟩
  | cons t rest ih =>
    obtain ⟨cost, win⟩ := t
    have hc : 0 < cost := hpos _ (List.mem_cons_self _ _)
    have hrest : ∀ t ∈ rest, 0 < t.1 := fun t ht => hpos t (List.mem_cons_of_mem _ ht)
    intro p hp
    by_cases h1 : cost ≤ p
    · have hfd : Int.fdiv p cost = p / cost := Int.fdiv_eq_ediv _ (le_of_lt hc)
      have h2 : 0 < Int.fdiv p cost := by
        rw [hfd]
        have h3 : (1 : Int) ≤ p / cost := (Int.le_ediv_iff_mul_le hc).mpr (by omega)
        omega
      have hde : cost * (p / cost) + p % cost = p := Int.ediv_add_emod p cost
      have hr1eq : p - Int.fdiv p cost * cost = p % cost := by
        rw [hfd]; linarith [mul_comm (p / cost) cost]
      have hr1nn : 0 ≤ p - Int.fdiv p cost * cost := by
        rw [hr1eq]; exact Int.emod_nonneg p (by omega)
      have hr1le : p - Int.fdiv p cost * cost ≤ p := by
        have : 0 < Int.fdiv p cost * cost := mul_pos h2 hc
        linarith
      obtain ⟨ha, hb2, hc2, hd2⟩ := ih hrest _ hr1nn
      rw [pkLoop_cons_take h1 h2]
      refine ⟨ha, le_trans hb2 hr1le, ?_, ?_⟩
      · simp only
        linarith
      · simp only [stepsCost, List.map_cons, List.sum_cons] at hd2 ⊢
        omega
    · rw [pkLoop_cons_skip h1]
      exact ih hrest p hp

/-- A budget strictly below every rung cost buys nothing: the loop returns
the budget untouched with zero win, no steps and nothing spent. -/
theorem pkLoop_skip_all (l : List (Int × Int)) (p : Int) (h : ∀ t ∈ l, p < t.1) :
    pkLoop l p = (p, 0, [], 0) := by
  induction l with
  | nil => rfl
  | cons t rest ih =>
    obtain ⟨cost, win⟩ := t
    rw [pkLoop_cons_skip (not_le.mpr (h _ (List.mem_cons_self _ _)))]
    exact ih (fun t ht => h t (List.mem_cons_of_mem _ ht))

/-- If no table beats the accumulator's current best win, the table loop
leaves the accumulator unchanged. -/
theorem pkFold_const (p : Int) :
    ∀ (tables : List (PkType × List (Int × Int))) (acc : PkAcc),
      (∀ t ∈ tables, tableWin p t.2 ≤ acc.best_win) → pkFold p tables acc = acc := by
  intro tables
  induction tables with
  | nil => intro acc _; rfl
  | cons t rest ih =>
    intro acc h
    have h1 : ¬ acc.best_win < tableWin p t.2 := not_lt.mpr (h t (List.mem_cons_self _ _))
    simp only [pkFold, if_neg h1]
    exact ih acc (fun t ht => h t (List.mem_cons_of_mem _ ht))

/-- Invariant of the table loop: the accumulator's `diamonds_used` is the
floor of a tenth of the recorded steps' cost, and that cost plus the
recorded leftover is the budget. -/
theorem pkFold_inv (p : Int) (hp : 0 ≤ p) :
    ∀ (tables : List (PkType × List (Int × Int))),
      (∀ t ∈ tables, ∀ u ∈ t.2, 0 < u.1) →
      ∀ acc : PkAcc,
        acc.diamonds_used = Int.fdiv (stepsCost acc.best_steps) 10 →
        stepsCost acc.best_steps + acc.remainder = p →
        0 ≤ acc.remainder →
        (pkFold p tables acc).diamonds_used
            = Int.fdiv (stepsCost (pkFold p tables acc).best_steps) 10
          ∧ stepsCost (pkFold p tables acc).best_steps
              + (pkFold p tables acc).remainder = p
          ∧ 0 ≤ (pkFold p tables acc).remainder := by
  intro tables
  induction tables with
  | nil => intro _ acc h1 h2 h3; exact ⟨h1, h2, h3⟩
  | cons t rest ih =>
    intro hpos acc h1 h2 h3
    have hrest : ∀ t ∈ rest, ∀ u ∈ t.2, 0 < u.1 :=
      fun t ht => hpos t (List.mem_cons_of_mem _ ht)
    simp only [pkFold]
    by_cases hw : acc.best_win < tableWin p t.2
    · rw [if_pos hw]
      have hpos1 : ∀ u ∈ sortDesc t.2, 0 < u.1 :=
        fun u hu => hpos t (List.mem_cons_self _ _) u (mem_sortDesc.mp hu)
      obtain ⟨ha, hb2, hc2, hd2⟩ := pkLoop_spec (sortDesc t.2) hpos1 p hp
      refine ih hrest _ ?_ ?_ ?_
      · simp only [tablePayload, tableRun]
        rw [← hd2]
      · simp only [tablePayload, tableRun]
        rw [← hd2]
        exact hc2
      · exact ha
    · rw [if_neg hw]
      exact ih hrest acc h1 h2 h3

/-- C5: for every points budget `<= 0` the PK Reward Optimizer returns the
null result — no table chosen, zero total win, empty step list, zero
diamonds consumed, and the full input budget as leftover.  The embedded
function is total, so no exception can be raised on such input. -/
theorem reward_nonpositive (p : Int) (hp : p ≤ 0) :
    reward_breakdown p = ⟨none, 0, [], 0, p⟩ := by
  simp [reward_breakdown, hp]

theorem reward_nonpositive_witness :
    reward_breakdown (-7) = ⟨none, 0, [], 0, -7⟩ :=
  reward_nonpositive (-7) (by decide)

/-- C9: for every strictly positive budget below the cheapest rung cost of
every reward table, the PK Reward Optimizer also returns the null result,
not the first table of the mapping. -/
theorem reward_below_all_rungs (p : Int) (hp : 0 < p)
    (hbelow : ∀ t ∈ pk_data, ∀ u ∈ t.2, p < u.1) :
    reward_breakdown p = ⟨none, 0, [], 0, p⟩ := by
  have hz : ¬ p ≤ 0 := not_le.mpr hp
  have hwin : ∀ t ∈ pk_data,
      tableWin p t.2 ≤ (⟨none, 0, [], 0, p⟩ : PkAcc).best_win := by
    intro t ht
    have hskip : pkLoop (sortDesc t.2) p = (p, 0, [], 0) :=
      pkLoop_skip_all _ _ (fun u hu => hbelow t ht u (mem_sortDesc.mp hu))
    simp [tableWin, tableRun, hskip]
  simp [reward_breakdown, hz, pkFold_const p pk_data _ hwin]

theorem reward_below_all_rungs_witness :
    reward_breakdown 1999 = ⟨none, 0, [], 0, 1999⟩ :=
  reward_below_all_rungs 1999 (by decide) (by decide)

/-- C6: for every non-negative points budget, the returned
`diamonds_used` equals the points actually spent on the chosen table
(the `Σ count * cost` of the returned steps) integer-divided by 10, and
therefore `diamonds_used * 10` is at most the input budget. -/
theorem reward_diamonds_used (p : Int) (hp : 0 ≤ p) :
    (reward_breakdown p).diamonds_used
        = Int.fdiv (stepsCost (reward_breakdown p).best_steps) 10
      ∧ (reward_breakdown p).diamonds_used * 10 ≤ p := by
  by_cases hz : p ≤ 0
  · have hp0 : p = 0 := le_antisymm hz hp
    subst hp0
    constructor
    · simp [reward_breakdown, stepsCost]
    · simp [reward_breakdown]
  · have heq : reward_breakdown p = pkFold p pk_data ⟨none, 0, [], 0, p⟩ := by
      simp [reward_breakdown, hz]
    obtain ⟨h1, h2, h3⟩ :=
      pkFold_inv p hp pk_data (by decide) ⟨none, 0, [], 0, p⟩
        (by simp [stepsCost]) (by simp [stepsCost]) (by simpa using hp)
    rw [heq]
    refine ⟨h1, ?_⟩
    set U := stepsCost (pkFold p pk_data ⟨none, 0, [], 0, p⟩).best_steps with hU
    have hUp : U ≤ p := by linarith
    have hfd : Int.fdiv U 10 = U / 10 := Int.fdiv_eq_ediv _ (by omega)
    have hde : 10 * (U / 10) + U % 10 = U := Int.ediv_add_emod U 10
    have hmn : 0 ≤ U % 10 := Int.emod_nonneg U (by omega)
    rw [h1, hfd]
    have : U / 10 * 10 ≤ U := by linarith [mul_comm (U / 10) 10]
    linarith

theorem reward_diamonds_used_witness :
    (reward_breakdown 100000).diamonds_used
        = Int.fdiv (stepsCost (reward_breakdown 100000).best_steps) 10
      ∧ (reward_breakdown 100000).diamonds_used * 10 ≤ 100000 :=
  reward_diamonds_used 100000 (by decide)

/-! ## Selection lemmas for the table loop -/

theorem foldMax_seed_le (p : Int) (l : List (PkType × List (Int × Int))) :
    ∀ m : Int, m ≤ foldMax p l m := by
  induction l with
  | nil => intro m; exact le_refl m
  | cons t rest ih =>
    intro m
    exact le_trans (ih m) (le_max_right _ _)

theorem tableWin_le_foldMax (p : Int) (l : List (PkType × List (Int × Int))) (m : Int) :
    ∀ t ∈ l, tableWin p t.2 ≤ foldMax p l m := by
  induction l with
  | nil => intro t ht; simp at ht
  | cons t2 rest ih =>
    intro t ht
    rcases List.mem_cons.mp ht with h | h
    · subst h; exact le_max_left _ _
    · exact le_trans (ih t h) (le_max_right _ _)

theorem foldMax_le (p : Int) (l : List (PkType × List (Int × Int))) {c m : Int}
    (hm : m ≤ c) (h : ∀ t ∈ l, tableWin p t.2 ≤ c) : foldMax p l m ≤ c := by
  induction l with
  | nil => exact hm
  | cons t rest ih =>
    have h1 : tableWin p t.2 ≤ c := h t (List.mem_cons_self _ _)
    have h2 : foldMax p rest m ≤ c := ih (fun t ht => h t (List.mem_cons_of_mem _ ht))
    exact max_le h1 h2

theorem foldMax_max (p : Int) (l : List (PkType × List (Int × Int))) :
    ∀ a b : Int, foldMax p l (max a b) = max (foldMax p l a) b := by
  induction l with
  | nil => intro a b; rfl
  | cons t rest ih =>
    intro a b
    simp only [foldMax, List.foldr_cons] at ih ⊢
    rw [ih, ← max_assoc, max_comm (tableWin p t.2) (List.foldr _ a rest), max_assoc]

/-- The table loop returns the payload of the first table (in list order)
attaining the running maximum win, whenever some table strictly beats the
initial accumulator's best win. -/
theorem pkFold_argmax (p : Int) :
    ∀ (tables : List (PkType × List (Int × Int))) (acc : PkAcc),
      acc.best_win < foldMax p tables acc.best_win →
      ∃ t, tables.find?
            (fun t => decide (foldMax p tables acc.best_win ≤ tableWin p t.2)) = some t
        ∧ pkFold p tables acc = tablePayload p t := by
  intro tables
  induction tables with
  | nil =>
    intro acc h
    exact absurd h (lt_irrefl _)
  | cons t rest ih =>
    intro acc h
    have hfm : foldMax p (t :: rest) acc.best_win
        = max (tableWin p t.2) (foldMax p rest acc.best_win) := rfl
    by_cases hmw : acc.best_win < tableWin p t.2
    · have hacc : pkFold p (t :: rest) acc = pkFold p rest (tablePayload p t) := by
        simp only [pkFold, if_pos hmw]
      have hpw : (tablePayload p t).best_win = tableWin p t.2 := rfl
      by_cases hrw : ∀ t2 ∈ rest, tableWin p t2.2 ≤ tableWin p t.2
      · have hconst : pkFold p rest (tablePayload p t) = tablePayload p t :=
          pkFold_const p rest _ (fun t2 ht2 => by rw [hpw]; exact hrw t2 ht2)
        have hT : foldMax p (t :: rest) acc.best_win = tableWin p t.2 := by
          rw [hfm]
          exact max_eq_left (foldMax_le p rest (le_of_lt hmw) hrw)
        refine ⟨t, ?_, by rw [hacc, hconst]⟩
        rw [List.find?_cons_of_pos]
        rw [hT]
        simp
      · push_neg at hrw
        obtain ⟨t2, ht2, hw2⟩ := hrw
        have hlt2 : tableWin p t.2 < foldMax p rest (tableWin p t.2) :=
          lt_of_lt_of_le hw2 (tableWin_le_foldMax p rest _ t2 ht2)
        obtain ⟨t3, hf, hres⟩ := ih (tablePayload p t) (by rw [hpw]; exact hlt2)
        have hmx : max acc.best_win (tableWin p t.2) = tableWin p t.2 :=
          max_eq_right (le_of_lt hmw)
        have hU : foldMax p rest (tableWin p t.2) = foldMax p (t :: rest) acc.best_win := by
          conv_lhs => rw [← hmx]
          rw [foldMax_max, max_comm, hfm]
        rw [hpw] at hf
        simp only [hU] at hf
        refine ⟨t3, ?_, by rw [hacc, hres]⟩
        rw [List.find?_cons_of_neg]
        · exact hf
        · simp only [decide_eq_true_eq, not_le, ← hU]
          exact hlt2
    · have hacc : pkFold p (t :: rest) acc = pkFold p rest acc := by
        simp only [pkFold, if_neg hmw]
      have hw1 : tableWin p t.2 ≤ foldMax p rest acc.best_win :=
        le_trans (not_lt.mp hmw) (foldMax_seed_le p rest acc.best_win)
      have hT : foldMax p (t :: rest) acc.best_win = foldMax p rest acc.best_win := by
        rw [hfm]
        exact max_eq_right hw1
      have h2 : acc.best_win < foldMax p rest acc.best_win := by
        rw [hT] at h
        exact h
      obtain ⟨t3, hf, hres⟩ := ih acc h2
      simp only [← hT] at hf
      refine ⟨t3, ?_, by rw [hacc, hres]⟩
      rw [List.find?_cons_of_neg]
      · exact hf
      · simp only [decide_eq_true_eq, not_le, hT]
        exact lt_of_le_of_lt (not_lt.mp hmw) h2

/-- C3 counterexample: at the positive budget 1000 every table's greedy win
is 0, so the maximum total win is 0 and the first table attaining it in
iteration order is Daily PK — yet the optimizer returns no table at all
(`best_win` starts at 0 and is only replaced on a strict improvement), so
the claim as stated fails at this input. -/
theorem reward_first_table_counterexample :
    maxWin 1000 = 0
      ∧ ((pk_data.find? (fun t => decide (maxWin 1000 ≤ tableWin 1000 t.2))).map Prod.fst)
          = some PkType.daily
      ∧ (reward_breakdown 1000).best_type = none := by
  exact ⟨by decide, by decide, by decide⟩

/-- C3 (amended): for every positive points budget whose maximal greedy
table win is positive, the PK Reward Optimizer returns the first table in
the mapping's iteration order attaining that maximal win (so ties at a
positive maximum are broken by first encounter), together with the maximal
win itself; when the maximal win is zero the optimizer instead returns no
table (see the counterexample). -/
theorem reward_first_table_amended (p : Int) (hp : 0 < p) (hmax : 0 < maxWin p) :
    ((pk_data.find? (fun t => decide (maxWin p ≤ tableWin p t.2))).map Prod.fst)
        = (reward_breakdown p).best_type
      ∧ (reward_breakdown p).best_win = maxWin p := by
  have hz : ¬ p ≤ 0 := not_le.mpr hp
  have heq : reward_breakdown p = pkFold p pk_data ⟨none, 0, [], 0, p⟩ := by
    simp [reward_breakdown, hz]
  have h0 : (⟨none, 0, [], 0, p⟩ : PkAcc).best_win
      < foldMax p pk_data (⟨none, 0, [], 0, p⟩ : PkAcc).best_win := hmax
  obtain ⟨t, hf, hres⟩ := pkFold_argmax p pk_data _ h0
  have hf2 : pk_data.find? (fun t => decide (maxWin p ≤ tableWin p t.2)) = some t := hf
  have htm : t ∈ pk_data := List.mem_of_find?_eq_some hf2
  have hwt : maxWin p ≤ tableWin p t.2 := by
    have := List.find?_some hf2
    simpa using this
  have hwt2 : tableWin p t.2 ≤ maxWin p := tableWin_le_foldMax p pk_data 0 t htm
  constructor
  · rw [hf2, heq, hres]
    rfl
  · rw [heq, hres]
    exact le_antisymm hwt2 hwt

theorem reward_first_table_amended_witness :
    ((pk_data.find? (fun t => decide (maxWin 100000 ≤ tableWin 100000 t.2))).map Prod.fst)
        = (reward_breakdown 100000).best_type
      ∧ (reward_breakdown 100000).best_win = maxWin 100000 :=
  reward_first_table_amended 100000 (by decide) (by decide)

/-! ## Lemmas about the spec-modelled Exact Allocator -/

theorem bestRow_cons (prev : List Int) (b : Nat) (t2 : Int × Int)
    (rest : List (Int × Int)) :
    bestRow prev b (t2 :: rest) =
      if 0 < t2.1 ∧ t2.1 ≤ (b : Int)
      then max (prev.getD (t2.1.toNat - 1) 0 + t2.2) (bestRow prev b rest)
      else bestRow prev b rest := rfl

theorem bestRow_nonneg (prev : List Int) (b : Nat) (catalog : List (Int × Int)) :
    0 ≤ bestRow prev b catalog := by
  induction catalog with
  | nil => exact le_refl 0
  | cons t rest ih =>
    rw [bestRow_cons]
    by_cases h : 0 < t.1 ∧ t.1 ≤ (b : Int)
    · rw [if_pos h]
      exact le_trans ih (le_max_right _ _)
    · rw [if_neg h]
      exact ih

theorem bestRow_ge (prev : List Int) (b : Nat) (catalog : List (Int × Int)) :
    ∀ t ∈ catalog, 0 < t.1 → t.1 ≤ (b : Int) →
      prev.getD (t.1.toNat - 1) 0 + t.2 ≤ bestRow prev b catalog := by
  induction catalog with
  | nil => intro t ht; simp at ht
  | cons t2 rest ih =>
    intro t ht h1 h2
    rw [bestRow_cons]
    rcases List.mem_cons.mp ht with h | h
    · subst h
      rw [if_pos ⟨h1, h2⟩]
      exact le_max_left _ _
    · have hr := ih t h h1 h2
      by_cases hp : 0 < t2.1 ∧ t2.1 ≤ (b : Int)
      · rw [if_pos hp]
        exact le_trans hr (le_max_right _ _)
      · rw [if_neg hp]
        exact hr

theorem bestRow_cases (prev : List Int) (b : Nat) (catalog : List (Int × Int)) :
    bestRow prev b catalog = 0
      ∨ ∃ t ∈ catalog, 0 < t.1 ∧ t.1 ≤ (b : Int)
          ∧ bestRow prev b catalog = prev.getD (t.1.toNat - 1) 0 + t.2 := by
  induction catalog with
  | nil => exact Or.inl rfl
  | cons t2 rest ih =>
    rw [bestRow_cons]
    by_cases hp : 0 < t2.1 ∧ t2.1 ≤ (b : Int)
    · rw [if_pos hp]
      rcases le_total (prev.getD (t2.1.toNat - 1) 0 + t2.2) (bestRow prev b rest) with hle | hle
      · rw [max_eq_right hle]
        rcases ih with h0 | ⟨t, ht, ha, hb2, hc2⟩
        · exact Or.inl h0
        · exact Or.inr ⟨t, List.mem_cons_of_mem _ ht, ha, hb2, hc2⟩
      · rw [max_eq_left hle]
        exact Or.inr ⟨t2, List.mem_cons_self _ _, hp.1, hp.2, rfl⟩
    · rw [if_neg hp]
      rcases ih with h0 | ⟨t, ht, ha, hb2, hc2⟩
      · exact Or.inl h0
      · exact Or.inr ⟨t, List.mem_cons_of_mem _ ht, ha, hb2, hc2⟩

theorem best_succ (catalog : List (Int × Int)) (b : Nat) :
    best catalog (b + 1) = bestRow (bestTable catalog b) (b + 1) catalog := rfl

theorem best_nonneg (catalog : List (Int × Int)) : ∀ b : Nat, 0 ≤ best catalog b
  | 0 => le_refl 0
  | b + 1 => bestRow_nonneg (bestTable catalog b) (b + 1) catalog

theorem bestTable_getD (catalog : List (Int × Int)) :
    ∀ b i : Nat, i ≤ b → (bestTable catalog b).getD i 0 = best catalog (b - i) := by
  intro b
  induction b with
  | zero =>
    intro i hi
    have h0 : i = 0 := Nat.le_zero.mp hi
    subst h0
    rfl
  | succ b ih =>
    intro i hi
    cases i with
    | zero => rfl
    | succ j =>
      have hj : j ≤ b := Nat.succ_le_succ_iff.mp hi
      simp only [bestTable, List.getD_cons_succ]
      rw [ih j hj]
      congr 1
      omega

theorem selCost_nonneg (catalog : List (Int × Int)) (hpos : ∀ t ∈ catalog, 0 < t.1) :
    ∀ sel : List (Int × Int), (∀ t ∈ sel, t ∈ catalog) → 0 ≤ selCost sel := by
  intro sel
  induction sel with
  | nil => intro _; simp [selCost]
  | cons t rest ih =>
    intro h
    have h1 : 0 < t.1 := hpos t (h t (List.mem_cons_self _ _))
    have h2 : 0 ≤ selCost rest := ih (fun u hu => h u (List.mem_cons_of_mem _ hu))
    simp only [selCost, List.map_cons, List.sum_cons]
    simp only [selCost] at h2
    linarith

theorem best_step (catalog : List (Int × Int)) {t : Int × Int} (ht : t ∈ catalog)
    (hc : 0 < t.1) {b : Nat} (hcb : t.1 ≤ (b : Int)) :
    best catalog (b - t.1.toNat) + t.2 ≤ best catalog b := by
  obtain ⟨b2, rfl⟩ : ∃ b2, b = b2 + 1 := ⟨b - 1, by omega⟩
  have hge := bestRow_ge (bestTable catalog b2) (b2 + 1) catalog t ht hc hcb
  have hgd : (bestTable catalog b2).getD (t.1.toNat - 1) 0
      = best catalog (b2 - (t.1.toNat - 1)) := bestTable_getD catalog b2 _ (by omega)
  have hidx : b2 - (t.1.toNat - 1) = b2 + 1 - t.1.toNat := by omega
  rw [hgd, hidx] at hge
  rw [best_succ]
  exact hge

/-- Upper-bound half of the Exact Allocator's optimality: no selection of
catalog tiers whose total cost fits the budget can yield more than the DP
value. -/
theorem best_ub (catalog : List (Int × Int)) (hpos : ∀ t ∈ catalog, 0 < t.1) :
    ∀ sel : List (Int × Int), (∀ t ∈ sel, t ∈ catalog) →
      ∀ b : Nat, selCost sel ≤ (b : Int) → selYield sel ≤ best catalog b := by
  intro sel
  induction sel with
  | nil =>
    intro _ b _
    simpa [selYield] using best_nonneg catalog b
  | cons t rest ih =>
    intro hmem b hcost
    have htc : t ∈ catalog := hmem t (List.mem_cons_self _ _)
    have hc : 0 < t.1 := hpos t htc
    have hrmem : ∀ u ∈ rest, u ∈ catalog := fun u hu => hmem u (List.mem_cons_of_mem _ hu)
    have hrnn : 0 ≤ selCost rest := selCost_nonneg catalog hpos rest hrmem
    have hcost2 : selCost (t :: rest) = t.1 + selCost rest := by
      simp [selCost]
    rw [hcost2] at hcost
    have hcb : t.1 ≤ (b : Int) := by linarith
    have hcast : ((b - t.1.toNat : Nat) : Int) = (b : Int) - t.1 := by omega
    have hcr : selCost rest ≤ ((b - t.1.toNat : Nat) : Int) := by
      rw [hcast]
      linarith
    have hyr := ih hrmem (b - t.1.toNat) hcr
    have hstep := best_step catalog htc hc hcb
    have hys : selYield (t :: rest) = t.2 + selYield rest := by simp [selYield]
    rw [hys]
    linarith

/-- Attainment half of the Exact Allocator's optimality: some selection of
catalog tiers fitting the budget yields exactly the DP value. -/
theorem best_att (catalog : List (Int × Int)) (hpos : ∀ t ∈ catalog, 0 < t.1) :
    ∀ b : Nat, ∃ sel : List (Int × Int),
      (∀ t ∈ sel, t ∈ catalog) ∧ selCost sel ≤ (b : Int)
        ∧ selYield sel = best catalog b := by
  intro b
  induction b using Nat.strong_induction_on with
  | _ b ih =>
    cases b with
    | zero =>
      refine ⟨[], by simp, by simp [selCost], ?_⟩
      simp [selYield]
      rfl
    | succ b2 =>
      rcases bestRow_cases (bestTable catalog b2) (b2 + 1) catalog with h0 | h1
      · refine ⟨[], by simp, by simp [selCost]; omega, ?_⟩
        rw [best_succ, h0]
        simp [selYield]
      · obtain ⟨t, ht, hc, hcb, hv⟩ := h1
        have hlt : b2 + 1 - t.1.toNat < b2 + 1 := by omega
        obtain ⟨sel2, hm2, hc2, hy2⟩ := ih _ hlt
        refine ⟨t :: sel2, ?_, ?_, ?_⟩
        · intro u hu
          rcases List.mem_cons.mp hu with h | h
          · subst h; exact ht
          · exact hm2 u h
        · have hsc : selCost (t :: sel2) = t.1 + selCost sel2 := by simp [selCost]
          have hcast : ((b2 + 1 - t.1.toNat : Nat) : Int) = ((b2 + 1 : Nat) : Int) - t.1 := by
            omega
          rw [hcast] at hc2
          rw [hsc]
          linarith
        · have hgd : (bestTable catalog b2).getD (t.1.toNat - 1) 0
              = best catalog (b2 - (t.1.toNat - 1)) := bestTable_getD catalog b2 _ (by omega)
          have hidx : b2 - (t.1.toNat - 1) = b2 + 1 - t.1.toNat := by omega
          have hsy : selYield (t :: sel2) = t.2 + selYield sel2 := by simp [selYield]
          rw [hsy, hy2, best_succ, hv, hgd, hidx]
          ring

theorem sum_replicate_int (n : Nat) (x : Int) : (List.replicate n x).sum = (n : Int) * x := by
  induction n with
  | zero => simp
  | succ m ih =>
    rw [List.replicate_succ, List.sum_cons, ih]
    push_cast
    ring

/-- Expanding a usage list with nonnegative counts into a plain selection
preserves the recorded total cost and total yield. -/
theorem expand_sums (cs : List ((Int × Int) × Int)) (hnn : ∀ q ∈ cs, 0 ≤ q.2) :
    selCost (expand cs) = sumCost cs ∧ selYield (expand cs) = sumYield cs := by
  induction cs with
  | nil => exact ⟨rfl, rfl⟩
  | cons q rest ih =>
    have hq : 0 ≤ q.2 := hnn q (List.mem_cons_self _ _)
    obtain ⟨ih1, ih2⟩ := ih (fun u hu => hnn u (List.mem_cons_of_mem _ hu))
    have htn : ((q.2.toNat : Nat) : Int) = q.2 := Int.toNat_of_nonneg hq
    constructor
    · simp only [expand, selCost, List.map_append, List.sum_append, List.map_replicate,
        sumCost, List.map_cons, List.sum_cons] at ih1 ⊢
      rw [sum_replicate_int, htn, ih1]
    · simp only [expand, selYield, List.map_append, List.sum_append, List.map_replicate,
        sumYield, List.map_cons, List.sum_cons] at ih2 ⊢
      rw [sum_replicate_int, htn, ih2]

theorem expand_mem {cs : List ((Int × Int) × Int)} {u : Int × Int} (hu : u ∈ expand cs) :
    ∃ q ∈ cs, u = q.1 := by
  induction cs with
  | nil => simp [expand] at hu
  | cons q rest ih =>
    simp only [expand, List.mem_append] at hu
    rcases hu with h | h
    · exact ⟨q, List.mem_cons_self _ _, List.eq_of_mem_replicate h⟩
    · obtain ⟨q2, hq2, he⟩ := ih h
      exact ⟨q2, List.mem_cons_of_mem _ hq2, he⟩

/-- The Greedy Allocator's total yield is achievable, hence bounded by the
DP optimum. -/
theorem greedy_le_best (b : Nat) (catalog : List (Int × Int))
    (hpos : ∀ t ∈ catalog, 0 < t.1) :
    (greedy_bean_to_diamond (b : Int) catalog).1 ≤ best catalog b := by
  by_cases hg : catalog = [] ∨ (b : Int) ≤ 0
  · simp only [greedy_bean_to_diamond, if_pos hg]
    exact best_nonneg catalog b
  · have hb : 0 ≤ (b : Int) := Int.ofNat_nonneg b
    have hpos2 : ∀ t ∈ sortDesc catalog, 0 < t.1 :=
      fun t ht => hpos t (mem_sortDesc.mp ht)
    obtain ⟨d, r2, cs, heq, hcons, hyld, hnn, hle, hlt, hmem⟩ :=
      greedyLoopE_spec (sortDesc catalog) hpos2 (b : Int) hb
    have hres : (greedy_bean_to_diamond (b : Int) catalog).1 = d := by
      have hg2 : ¬ (catalog = [] ∨ b = 0) := by
        intro h
        apply hg
        rcases h with h | h
        · exact Or.inl h
        · exact Or.inr (by omega)
      simp [greedy_bean_to_diamond, heq, hg2]
    rw [hres, hyld]
    have hcnt : ∀ q ∈ cs, 0 ≤ q.2 := fun q hq => le_of_lt (hmem q hq).1
    obtain ⟨he1, he2⟩ := expand_sums cs hcnt
    have hselmem : ∀ u ∈ expand cs, u ∈ catalog := by
      intro u hu
      obtain ⟨q, hq, he⟩ := expand_mem hu
      subst he
      exact mem_sortDesc.mp (hmem q hq).2
    have hselcost : selCost (expand cs) ≤ (b : Int) := by
      rw [he1]
      linarith
    have hub := best_ub catalog hpos (expand cs) hselmem b hselcost
    rw [he2] at hub
    exact hub

/-- C1: the spec-modelled Exact Allocator's `totalYield` (`best`) is the
true maximum achievable yield of the unbounded knapsack — every selection
of catalog tiers whose total cost fits the budget yields at most `best`,
and some such selection attains `best` — and it is at least the Greedy
Allocator's total yield on the same budget and catalog. -/
theorem exact_allocator_optimal (b : Nat) (catalog : List (Int × Int))
    (hpos : ∀ t ∈ catalog, 0 < t.1) :
    (∀ sel : List (Int × Int), (∀ t ∈ sel, t ∈ catalog) →
        selCost sel ≤ (b : Int) → selYield sel ≤ best catalog b)
      ∧ (∃ sel : List (Int × Int),
          (∀ t ∈ sel, t ∈ catalog) ∧ selCost sel ≤ (b : Int)
            ∧ selYield sel = best catalog b)
      ∧ (greedy_bean_to_diamond (b : Int) catalog).1 ≤ best catalog b :=
  ⟨fun sel hm hc => best_ub catalog hpos sel hm b hc, best_att catalog hpos b,
    greedy_le_best b catalog hpos⟩

theorem exact_allocator_optimal_witness :
    (∀ sel : List (Int × Int),
        (∀ t ∈ sel, t ∈ [((2 : Int), (8 : Int)), (29, 109), (275, 999), (1105, 3999), (3045, 10999)]) →
        selCost sel ≤ ((10 : Nat) : Int)
          → selYield sel ≤ best [((2 : Int), (8 : Int)), (29, 109), (275, 999), (1105, 3999), (3045, 10999)] 10)
      ∧ (∃ sel : List (Int × Int),
          (∀ t ∈ sel, t ∈ [((2 : Int), (8 : Int)), (29, 109), (275, 999), (1105, 3999), (3045, 10999)])
            ∧ selCost sel ≤ ((10 : Nat) : Int)
            ∧ selYield sel = best [((2 : Int), (8 : Int)), (29, 109), (275, 999), (1105, 3999), (3045, 10999)] 10)
      ∧ (greedy_bean_to_diamond ((10 : Nat) : Int)
          [((2 : Int), (8 : Int)), (29, 109), (275, 999), (1105, 3999), (3045, 10999)]).1
        ≤ best [((2 : Int), (8 : Int)), (29, 109), (275, 999), (1105, 3999), (3045, 10999)] 10 :=
  exact_allocator_optimal 10 [(2, 8), (29, 109), (275, 999), (1105, 3999), (3045, 10999)] (by decide)
